import Mathlib

/-
Verification development for the popcorn spectral-imaging core.

Embedded source files:
* src/popcorn/spectral_imaging/material_decomposition.py — the per-voxel
  linear-system solver `decomposition_equation_resolution` (lines 275-337).
* src/popcorn/spectral_imaging/registration.py — geometric primitives and the
  alignment pipeline (rotation matrix between 3-D vectors, black-slice
  counting, symmetry search, bounding-box recentering, throat centroid).

Modelling conventions.  Array data is embedded over exact rationals (ℚ);
quantities the source computes with `math.sqrt`, `np.linalg.norm` or `math.pi`
are embedded over ℝ.  numpy arrays of shape (a, b) become either functions
`Fin a → Fin b → ℚ` (the typed layer, shapes correct by construction) or
`List (List ℚ)` (the run layer, which also models the shape errors and
exceptions the interpreter raises).  Lean's total division (`x / 0 = 0`)
differs from IEEE float division (`0.0 / 0.0 = NaN`): wherever a claim turns
on a division by zero, the divisor itself is exposed as a definition and the
theorems speak about the divisor being zero rather than about the quotient.
-/

section MaterialDecomposition

open Matrix

/-- Number of extra constraint rows appended to the system:
`volume_fraction_hypothesis * 1` in the source (line 299). -/
def cNat (hyp : Bool) : ℕ := if hyp then 1 else 0

/-- The coefficient matrix `system_2d_matrix` (lines 299-301): an all-ones
`(K + constraint) × P` matrix whose first `K` rows are overwritten with
`material_attenuations`; when the volume-fraction hypothesis is enabled the
final row keeps the ones. -/
def systemMatrix {K P : ℕ} (mu : Matrix (Fin K) (Fin P) ℚ) (hyp : Bool) :
    Matrix (Fin (K + cNat hyp)) (Fin P) ℚ :=
  fun r c => if h : (r : ℕ) < K then mu ⟨r, h⟩ c else 1

/-- The per-voxel right-hand side, one column of `vector_2d_matrix`
(lines 302-305): the voxel's value in each energy image, followed by a `1`
when the volume-fraction hypothesis is enabled. -/
def voxelVector {K V : ℕ} (images : Fin K → Fin V → ℚ) (hyp : Bool) (v : Fin V) :
    Fin (K + cNat hyp) → ℚ :=
  fun r => if h : (r : ℕ) < K then images ⟨r, h⟩ v else 1

/-- `np.linalg.solve` on a square system (line 310): for an invertible matrix
numpy returns the unique solution of `M x = b`; it is embedded through the
adjugate formula `x = det(M)⁻¹ · adj(M) · b`, which agrees with that unique
solution whenever `det M ≠ 0` (see `solveSquare_mulVec`). -/
def solveSquare {n : ℕ} (M : Matrix (Fin n) (Fin n) ℚ) (b : Fin n → ℚ) : Fin n → ℚ :=
  M.det⁻¹ • M.adjugate.mulVec b

/-- `np.linalg.lstsq` (line 317) returns a least-squares solution of `A x = b`;
for a full-column-rank `A` (invertible Gram matrix `Aᵀ A`) that solution is
unique and solves the normal equations `Aᵀ A x = Aᵀ b`, which is how it is
embedded here.  When the Gram matrix is singular numpy instead returns the
minimum-norm solution while this embedding returns the zero vector; no claim
below depends on the value produced in that regime, only on the fact that
`np.linalg.lstsq` returns without raising. -/
def lstsqModel {m p : ℕ} (A : Matrix (Fin m) (Fin p) ℚ) (b : Fin m → ℚ) : Fin p → ℚ :=
  solveSquare (Aᵀ * A) (Aᵀ.mulVec b)

/-- The coefficient matrix reindexed as a square `P × P` matrix, available
exactly when `K + constraint = P` (the branch test on line 308). -/
def squareSystem {K P : ℕ} (mu : Matrix (Fin K) (Fin P) ℚ) (hyp : Bool)
    (h : K + cNat hyp = P) : Matrix (Fin P) (Fin P) ℚ :=
  fun i j => systemMatrix mu hyp (Fin.cast h.symm i) j

/-- The per-voxel right-hand side reindexed to match `squareSystem`. -/
def squareRhs {K P V : ℕ} (images : Fin K → Fin V → ℚ) (hyp : Bool)
    (h : K + cNat hyp = P) (v : Fin V) : Fin P → ℚ :=
  fun i => voxelVector images hyp v (Fin.cast h.symm i)

/-- One row of `solution_matrix` (lines 307-326): the raw per-voxel solution
before density scaling.  Exactly determined systems (`K + constraint == P`,
line 308) go through `np.linalg.solve`; every other size, including the
under-determined case `K + constraint < P`, falls into the `np.linalg.lstsq`
loop (lines 311-326), mirroring the source's two-way branch. -/
def rawSolution {K P V : ℕ} (images : Fin K → Fin V → ℚ) (mu : Matrix (Fin K) (Fin P) ℚ)
    (hyp : Bool) (v : Fin V) : Fin P → ℚ :=
  if h : K + cNat hyp = P then
    solveSquare (squareSystem mu hyp h) (squareRhs images hyp h v)
  else
    lstsqModel (systemMatrix mu hyp) (voxelVector images hyp v)

/-- `decomposition_equation_resolution` (lines 275-337), typed layer: material
`i`'s concentration map at voxel `v` is the raw solution scaled by
`densities[i] * 1000.0` (lines 333-336).  The `astype(np.float32)` rounding
and the reshape to the original spatial shape are not modelled: voxels are
kept flattened and arithmetic is exact. -/
def decomposition_equation_resolution {K P V : ℕ} (images : Fin K → Fin V → ℚ)
    (densities : Fin P → ℚ) (mu : Matrix (Fin K) (Fin P) ℚ) (hyp : Bool) :
    Fin P → Fin V → ℚ :=
  fun i v => rawSolution images mu hyp v i * densities i * 1000

/-- Executable determinant by Laplace expansion along the first column; used
by the run layer so that singularity tests evaluate by kernel reduction. -/
def detQ : {n : ℕ} → Matrix (Fin n) (Fin n) ℚ → ℚ
  | 0, _ => 1
  | n + 1, M => ∑ i : Fin (n + 1), (-1) ^ (i : ℕ) * M i 0 * detQ (M.submatrix i.succAbove Fin.succ)

theorem detQ_eq_det {n : ℕ} (M : Matrix (Fin n) (Fin n) ℚ) : detQ M = M.det := by
  induction n with
  | zero => simp [detQ, Matrix.det_fin_zero]
  | succ n ih =>
    rw [Matrix.det_succ_column_zero, detQ]
    exact Finset.sum_congr rfl fun i _ => by rw [ih]

theorem solveSquare_mulVec {n : ℕ} (M : Matrix (Fin n) (Fin n) ℚ) (hdet : M.det ≠ 0)
    (b : Fin n → ℚ) : M.mulVec (solveSquare M b) = b := by
  unfold solveSquare
  rw [Matrix.mulVec_smul, Matrix.mulVec_mulVec, Matrix.mul_adjugate, Matrix.smul_mulVec_assoc,
    Matrix.one_mulVec]
  exact inv_smul_smul₀ hdet b

theorem solveSquare_unique {n : ℕ} (M : Matrix (Fin n) (Fin n) ℚ) (hdet : M.det ≠ 0)
    (x : Fin n → ℚ) : solveSquare M (M.mulVec x) = x := by
  unfold solveSquare
  rw [Matrix.mulVec_mulVec, Matrix.adjugate_mul, Matrix.smul_mulVec_assoc, Matrix.one_mulVec]
  exact inv_smul_smul₀ hdet x

theorem lstsqModel_exact {m p : ℕ} (A : Matrix (Fin m) (Fin p) ℚ)
    (hdet : (Aᵀ * A).det ≠ 0) (x : Fin p → ℚ) : lstsqModel A (A.mulVec x) = x := by
  unfold lstsqModel
  rw [Matrix.mulVec_mulVec]
  exact solveSquare_unique _ hdet x

theorem squareSystem_false {n : ℕ} (mu : Matrix (Fin n) (Fin n) ℚ)
    (h : n + cNat false = n) : squareSystem mu false h = mu := by
  funext i j
  exact dif_pos i.isLt

theorem squareRhs_false {n V : ℕ} (images : Fin n → Fin V → ℚ)
    (h : n + cNat false = n) (v : Fin V) :
    squareRhs images false h v = fun i => images i v := by
  funext i
  exact dif_pos i.isLt

/-- Claim C1: for a square system (`K == P` energies and materials, the
volume-fraction constraint disabled) with an invertible coefficient matrix,
multiplying the coefficient matrix by the per-voxel solution recovered by
`decomposition_equation_resolution` — after dividing material `i`'s map by
`densities i * 1000`, undoing the scaling of lines 333-336 — reproduces the
observed attenuation of every voxel at every energy. -/
theorem square_decomposition_roundtrip {n V : ℕ} (images : Fin n → Fin V → ℚ)
    (densities : Fin n → ℚ) (mu : Matrix (Fin n) (Fin n) ℚ)
    (hdet : mu.det ≠ 0) (hd : ∀ i, densities i ≠ 0) (k : Fin n) (v : Fin V) :
    ∑ i, mu k i *
      (decomposition_equation_resolution images densities mu false i v / (densities i * 1000)) =
      images k v := by
  have hKP : n + cNat false = n := rfl
  have hsolve : rawSolution images mu false v = solveSquare mu fun j => images j v := by
    simp only [rawSolution, dif_pos hKP]
    rw [squareSystem_false mu hKP, squareRhs_false images hKP v]
  have hscale : ∀ i,
      decomposition_equation_resolution images densities mu false i v / (densities i * 1000) =
        rawSolution images mu false v i := by
    intro i
    have hne : densities i * 1000 ≠ 0 := mul_ne_zero (hd i) (by norm_num)
    simp only [decomposition_equation_resolution]
    rw [mul_assoc, mul_div_assoc, div_self hne, mul_one]
  calc ∑ i, mu k i *
        (decomposition_equation_resolution images densities mu false i v / (densities i * 1000))
      = ∑ i, mu k i * rawSolution images mu false v i := by
        exact Finset.sum_congr rfl fun i _ => by rw [hscale i]
    _ = mu.mulVec (rawSolution images mu false v) k := by
        simp [Matrix.mulVec, Matrix.dotProduct]
    _ = images k v := by
        rw [hsolve, solveSquare_mulVec mu hdet]

def imC1 : Fin 1 → Fin 1 → ℚ := fun _ _ => 6

def dC1 : Fin 1 → ℚ := fun _ => 1

def muC1 : Matrix (Fin 1) (Fin 1) ℚ := fun _ _ => 2

/-- Witness for C1 at the concrete square system `2 · x = 6`, density 1. -/
theorem square_decomposition_roundtrip_witness :
    ∑ i, muC1 0 i *
      (decomposition_equation_resolution imC1 dC1 muC1 false i 0 / (dC1 i * 1000)) =
      imC1 0 0 :=
  square_decomposition_roundtrip imC1 dC1 muC1
    (by simp [Matrix.det_fin_one, muC1]) (fun i => by simp [dC1]) 0 0

/-- Claim C3: each material's output concentration map is linear in that
material's density.  Doubling `densities i0` (images and attenuation matrix
fixed — the raw solution of lines 307-326 never reads the densities, which
enter only in the scaling of lines 333-336) exactly doubles map `i0` and
leaves every other material's map unchanged. -/
theorem density_linearity {K P V : ℕ} (images : Fin K → Fin V → ℚ) (densities : Fin P → ℚ)
    (mu : Matrix (Fin K) (Fin P) ℚ) (hyp : Bool) (i0 j : Fin P) (v : Fin V) :
    decomposition_equation_resolution images
        (Function.update densities i0 (2 * densities i0)) mu hyp j v =
      if j = i0 then 2 * decomposition_equation_resolution images densities mu hyp j v
      else decomposition_equation_resolution images densities mu hyp j v := by
  by_cases h : j = i0
  · subst h
    simp only [decomposition_equation_resolution, Function.update_same, eq_self_iff_true,
      if_true]
    ring
  · simp only [decomposition_equation_resolution, Function.update_noteq h, if_neg h]

/-- Claim C2 (amended): the exactly-determined path (`K + constraint = P`,
`np.linalg.solve`) and the least-squares path (`K + constraint > P`,
`np.linalg.lstsq`) produce the same concentration maps on systems sharing an
exact per-voxel solution `x`, provided the square system is invertible and
the over-determined system has full column rank (invertible Gram matrix).
The hypothesis `2 ≤ V` records the amendment: the least-squares branch of the
source mishandles single-voxel images (see
`solver_paths_disagree_single_voxel_cex`), so agreement only holds from two
voxels up. -/
theorem solver_paths_agree_on_consistent_systems {P V K1 K2 : ℕ} (hV : 2 ≤ V)
    (im1 : Fin K1 → Fin V → ℚ) (im2 : Fin K2 → Fin V → ℚ) (d : Fin P → ℚ)
    (mu1 : Matrix (Fin K1) (Fin P) ℚ) (mu2 : Matrix (Fin K2) (Fin P) ℚ)
    (hyp1 hyp2 : Bool) (h1 : K1 + cNat hyp1 = P) (h2 : P < K2 + cNat hyp2)
    (x : Fin V → Fin P → ℚ)
    (hdet1 : (squareSystem mu1 hyp1 h1).det ≠ 0)
    (hdet2 : ((systemMatrix mu2 hyp2)ᵀ * systemMatrix mu2 hyp2).det ≠ 0)
    (hx1 : ∀ v, (systemMatrix mu1 hyp1).mulVec (x v) = voxelVector im1 hyp1 v)
    (hx2 : ∀ v, (systemMatrix mu2 hyp2).mulVec (x v) = voxelVector im2 hyp2 v) :
    decomposition_equation_resolution im1 d mu1 hyp1 =
      decomposition_equation_resolution im2 d mu2 hyp2 := by
  have hraw1 : ∀ v, rawSolution im1 mu1 hyp1 v = x v := by
    intro v
    have hb : (squareSystem mu1 hyp1 h1).mulVec (x v) = squareRhs im1 hyp1 h1 v := by
      funext i
      exact congrFun (hx1 v) (Fin.cast h1.symm i)
    simp only [rawSolution, dif_pos h1]
    rw [← hb, solveSquare_unique _ hdet1]
  have hraw2 : ∀ v, rawSolution im2 mu2 hyp2 v = x v := by
    intro v
    have hne : ¬ (K2 + cNat hyp2 = P) := by omega
    simp only [rawSolution, dif_neg hne]
    rw [← hx2 v, lstsqModel_exact _ hdet2]
  funext i v
  simp only [decomposition_equation_resolution, hraw1 v, hraw2 v]

/-- Errors the run layer can surface.  `shapeMismatch` and
`insufficientEnergies` are the error kinds named by the specification; the
source never raises anything of those kinds, so no branch below produces
them — they exist solely so the specification's claims can be stated.  The
remaining constructors stand for the exceptions the interpreter actually
raises inside `decomposition_equation_resolution`. -/
inductive DecompErr where
  | shapeMismatch
  | insufficientEnergies
  | broadcastMismatch
  | singularMatrix
  | indexError
  | noneTypeError
  deriving DecidableEq

/-- A `List`-of-lists view of a rational matrix, out-of-range entries read 0. -/
def listMatrix (xs : List (List ℚ)) (R C : ℕ) : Matrix (Fin R) (Fin C) ℚ :=
  fun r c => (xs.getD r []).getD c 0

/-- numpy's broadcast rule for the slice assignment `dst[0:R, :] = xs` with
`dst` of shape `R × C` and `xs` a 2-D ndarray: each dimension of `xs` must
equal the destination's or be 1.  The first conjunct states that `xs` is a
rectangular list-of-lists — i.e. that it denotes a 2-D ndarray at all (a
ragged list denotes no float ndarray, so the run layer reports it through the
same shape error).  A 1-D or 0-D `xs` is outside this embedding's input type;
the source documents `material_attenuations` as a 2-D `K × P` array. -/
def broadcastsInto (xs : List (List ℚ)) (R C : ℕ) : Prop :=
  (∀ r ∈ xs, r.length = (xs.headD []).length) ∧
  (xs.length = R ∨ xs.length = 1) ∧
  ((xs.headD []).length = C ∨ (xs.headD []).length = 1)

instance broadcastsIntoDecidable (xs : List (List ℚ)) (R C : ℕ) :
    Decidable (broadcastsInto xs R C) :=
  inferInstanceAs (Decidable ((∀ r ∈ xs, r.length = (xs.headD []).length) ∧
    (xs.length = R ∨ xs.length = 1) ∧
    ((xs.headD []).length = C ∨ (xs.headD []).length = 1)))

/-- The matrix the destination holds after the broadcast assignment: a
length-1 dimension of the source is replicated across the destination.  When
the source's shape is exactly `R × C` this agrees with `listMatrix`. -/
def broadcastMatrix (xs : List (List ℚ)) (R C : ℕ) : Matrix (Fin R) (Fin C) ℚ :=
  fun r c =>
    (xs.getD (if xs.length = 1 then 0 else (r : ℕ)) []).getD
      (if (xs.headD []).length = 1 then 0 else (c : ℕ)) 0

/-- A `List` view of a rational vector, out-of-range entries read 0. -/
def listVec (xs : List ℚ) (n : ℕ) : Fin n → ℚ :=
  fun i => xs.getD i 0

/-- Renders the typed concentration maps back to a list of per-material maps. -/
def mapsToLists (P V : ℕ) (f : Fin P → Fin V → ℚ) : List (List ℚ) :=
  (List.finRange P).map fun i => (List.finRange V).map fun v => f i v

/-- `isOkB e` is `true` exactly when the run returned a value rather than
raising. -/
def isOkB {ε α : Type} : Except ε α → Bool
  | .ok _ => true
  | .error _ => false

/-- Run layer of `decomposition_equation_resolution` (lines 275-337): it
models, in source order, the interpreter-level failures around the algebra of
the typed layer.  `K` is `images.shape[0]` (line 290), `P` is
`densities.size` (line 291); neither is a declared parameter, so an image
count can never disagree with a "declared" energy count.  The first test
models the numpy broadcast of `material_attenuations` into
`system_2d_matrix[0:K, :]` (line 301), which raises `ValueError` exactly when
the matrix's shape does not broadcast into `K × P`; dimension-inconsistent
but broadcast-compatible shapes (such as `1 × P` with `K > 1`, or `K × 1`
with `P > 1`) are accepted silently, the length-1 dimension replicated — see
`broadcastsInto` and `broadcastMatrix`.  The second test records that
`images` is one rectangular ndarray.  On the square branch `np.linalg.solve`
(line 310)
raises `LinAlgError` for a singular system.  On the least-squares branch
(lines 311-326) a single-voxel image leaves `solution_matrix` one-dimensional
so the column access `solution_matrix[:, i]` (line 334) raises `IndexError`,
and an empty image leaves it `None` (`TypeError`); otherwise the run returns
the typed layer's maps.  The `images[0, :]` access of line 302 for an empty
`images` array is not modelled (no claim exercises zero energies). -/
def decomposition_equation_resolution_run (images : List (List ℚ)) (densities : List ℚ)
    (mu : List (List ℚ)) (hyp : Bool) : Except DecompErr (List (List ℚ)) :=
  if broadcastsInto mu images.length densities.length then
    if ∀ im ∈ images, im.length = (images.headD []).length then
      if hsq : images.length + cNat hyp = densities.length then
        if detQ (squareSystem (broadcastMatrix mu images.length densities.length) hyp hsq)
            = 0 then
          .error .singularMatrix
        else
          .ok (mapsToLists densities.length (images.headD []).length
            (decomposition_equation_resolution
              (listMatrix images images.length (images.headD []).length)
              (listVec densities densities.length)
              (broadcastMatrix mu images.length densities.length) hyp))
      else if (images.headD []).length = 0 then .error .noneTypeError
      else if (images.headD []).length = 1 then .error .indexError
      else
        .ok (mapsToLists densities.length (images.headD []).length
          (decomposition_equation_resolution
            (listMatrix images images.length (images.headD []).length)
            (listVec densities densities.length)
            (broadcastMatrix mu images.length densities.length) hyp))
    else .error .broadcastMismatch
  else .error .broadcastMismatch

/-- Counterexample to claim C2 as stated: the consistent single-voxel system
(`2 · 3 = 6` square, `[1; 1] · 3 = [3; 3]` over-determined, shared exact
solution `x = 3`) succeeds on the exact-solve path but raises `IndexError` on
the least-squares path — `solution_matrix` stays one-dimensional after the
single `lstsq` call, so `solution_matrix[:, 0]` (line 334) fails — hence the
two paths do not produce the same maps on every consistent system.  The last
two conjuncts exhibit the shared exact solution. -/
theorem solver_paths_disagree_single_voxel_cex :
    isOkB (decomposition_equation_resolution_run [[6]] [1] [[2]] false) = true ∧
    decomposition_equation_resolution_run [[3], [3]] [1] [[1], [1]] false =
      .error .indexError ∧
    (systemMatrix (listMatrix [[(2 : ℚ)]] 1 1) false).mulVec (fun _ => 3) =
      voxelVector (listMatrix [[(6 : ℚ)]] 1 1) false (0 : Fin 1) ∧
    (systemMatrix (listMatrix [[(1 : ℚ)], [(1 : ℚ)]] 2 1) false).mulVec (fun _ => 3) =
      voxelVector (listMatrix [[(3 : ℚ)], [(3 : ℚ)]] 2 1) false (0 : Fin 1) := by
  refine ⟨?_, rfl, ?_, ?_⟩
  · unfold decomposition_equation_resolution_run
    have hsq : ([[(6 : ℚ)]] : List (List ℚ)).length + cNat false = [(1 : ℚ)].length := rfl
    have hdet :
        ¬ (detQ (squareSystem
            (broadcastMatrix [[(2 : ℚ)]] ([[(6 : ℚ)]] : List (List ℚ)).length
              ([(1 : ℚ)] : List ℚ).length) false hsq) = 0) := by
      rw [squareSystem_false _ hsq]
      simp [detQ, Fin.sum_univ_one, broadcastMatrix]
    rw [if_pos (by decide), if_pos (by decide), dif_pos hsq, if_neg hdet]
    rfl
  · funext r
    rcases r with ⟨rv, hrv⟩
    have hr : rv < 1 := by simpa [cNat] using hrv
    interval_cases rv
    norm_num [Matrix.mulVec, Matrix.dotProduct, systemMatrix, voxelVector, listMatrix,
      Fin.sum_univ_one]
  · funext r
    rcases r with ⟨rv, hrv⟩
    have hr : rv < 2 := by simpa [cNat] using hrv
    interval_cases rv <;>
      norm_num [Matrix.mulVec, Matrix.dotProduct, systemMatrix, voxelVector, listMatrix,
        Fin.sum_univ_one]

def imC2sq : Fin 1 → Fin 2 → ℚ := fun _ _ => 6

def imC2ls : Fin 2 → Fin 2 → ℚ := fun _ _ => 3

def dC2 : Fin 1 → ℚ := fun _ => 1

def muC2sq : Matrix (Fin 1) (Fin 1) ℚ := fun _ _ => 2

def muC2ls : Matrix (Fin 2) (Fin 1) ℚ := fun _ _ => 1

def xC2 : Fin 2 → Fin 1 → ℚ := fun _ _ => 3

theorem c2w_hdet1 : ∀ h : 1 + cNat false = 1, (squareSystem muC2sq false h).det ≠ 0 := by
  intro h
  rw [squareSystem_false _ h]
  simp [Matrix.det_fin_one, muC2sq]

theorem c2w_hdet2 : ((systemMatrix muC2ls false)ᵀ * systemMatrix muC2ls false).det ≠ 0 := by
  have key : ((systemMatrix muC2ls false)ᵀ * systemMatrix muC2ls false) 0 0 = (2 : ℚ) := by
    have hsum : ((systemMatrix muC2ls false)ᵀ * systemMatrix muC2ls false) 0 0 =
        ∑ j : Fin 2, systemMatrix muC2ls false j 0 * systemMatrix muC2ls false j 0 := by
      rw [Matrix.mul_apply]; rfl
    rw [hsum, Fin.sum_univ_two]
    norm_num [systemMatrix, muC2ls]
  rw [Matrix.det_fin_one, key]
  norm_num

theorem c2w_hx1 : ∀ v, (systemMatrix muC2sq false).mulVec (xC2 v) = voxelVector imC2sq false v := by
  intro v
  funext r
  rcases r with ⟨rv, hrv⟩
  have hr : rv < 1 := by simpa [cNat] using hrv
  interval_cases rv
  norm_num [Matrix.mulVec, Matrix.dotProduct, systemMatrix, voxelVector, muC2sq, imC2sq, xC2,
    Fin.sum_univ_one]

theorem c2w_hx2 : ∀ v, (systemMatrix muC2ls false).mulVec (xC2 v) = voxelVector imC2ls false v := by
  intro v
  funext r
  rcases r with ⟨rv, hrv⟩
  have hr : rv < 2 := by simpa [cNat] using hrv
  interval_cases rv <;>
    norm_num [Matrix.mulVec, Matrix.dotProduct, systemMatrix, voxelVector, muC2ls, imC2ls, xC2,
      Fin.sum_univ_one]

/-- Witness for the amended C2 at a concrete two-voxel pair of consistent
systems sharing the exact solution `x = 3`. -/
theorem solver_paths_agree_witness :
    2 ≤ 2 ∧
    decomposition_equation_resolution imC2sq dC2 muC2sq false =
      decomposition_equation_resolution imC2ls dC2 muC2ls false :=
  ⟨by norm_num,
    solver_paths_agree_on_consistent_systems (by norm_num) imC2sq imC2ls dC2 muC2sq muC2ls
      false false rfl (by simp [cNat]) xC2 (c2w_hdet1 rfl) c2w_hdet2 c2w_hx1 c2w_hx2⟩

/-- Claim C4 (amended): a malformed attenuation matrix fails the slice
assignment `system_2d_matrix[0:K, :] = material_attenuations` (line 301)
before any per-voxel solve exactly when its shape does not broadcast into
`K × P`; the failure is numpy's generic broadcast `ValueError`, not a
dedicated `ShapeMismatch` error.  Dimension-inconsistent but
broadcast-compatible shapes (a `1 × P` row against `K > 1` energies, or a
`K × 1` column against `P > 1` materials) raise nothing at all — the
assignment silently replicates the length-1 dimension and the solve proceeds
(see `broadcast_compatible_matrix_accepted`).  An "images not matching the
declared energy count" malformation cannot occur, because the energy count is
read off the images array itself (line 290). -/
theorem malformed_matrix_broadcast_error (images : List (List ℚ)) (densities : List ℚ)
    (mu : List (List ℚ)) (hyp : Bool)
    (him : ∀ im ∈ images, im.length = (images.headD []).length) :
    (decomposition_equation_resolution_run images densities mu hyp =
        .error .broadcastMismatch) ↔
      ¬ broadcastsInto mu images.length densities.length := by
  unfold decomposition_equation_resolution_run
  by_cases hbc : broadcastsInto mu images.length densities.length
  · rw [if_pos hbc, if_pos him]
    constructor
    · intro h
      exfalso
      split at h
      · split at h
        · simp at h
        · simp at h
      · split at h
        · simp at h
        · split at h
          · simp at h
          · simp at h
    · intro h
      exact absurd hbc h
  · rw [if_neg hbc]
    exact iff_of_true rfl hbc

/-- A dimension-inconsistent but broadcast-compatible attenuation matrix —
one row (`1 × 3`) against `K = 2` energy images and `P = 3` materials — is
accepted silently: the assignment of line 301 replicates the row into both
rows of `system_2d_matrix` and the run completes with concentration maps. -/
theorem broadcast_compatible_matrix_accepted :
    (([[(3 : ℚ), 4, 5]] : List (List ℚ)).length ≠
      ([[1, 1], [2, 2]] : List (List ℚ)).length) ∧
    isOkB (decomposition_equation_resolution_run [[1, 1], [2, 2]] [1, 1, 1] [[3, 4, 5]]
      false) = true :=
  ⟨by decide, rfl⟩

/-- Counterexample to claim C4 as stated: the malformed call (one 2-pixel
energy image, two densities, a 2 × 1 attenuation matrix) fails with the
generic broadcast error, which is not the `ShapeMismatch` error the claim
requires. -/
theorem malformed_matrix_not_shape_mismatch_cex :
    decomposition_equation_resolution_run [[1, 1]] [1, 1] [[1], [2]] false =
      .error .broadcastMismatch ∧
    DecompErr.broadcastMismatch ≠ DecompErr.shapeMismatch :=
  ⟨rfl, by decide⟩

/-- Witness for the amended C4 at the same malformed call: the 2 × 1 matrix
does not broadcast into the 1 × 2 slot, and the run errors accordingly. -/
theorem malformed_matrix_broadcast_error_witness :
    (∀ im ∈ ([[1, 1]] : List (List ℚ)), im.length = (([[1, 1]] : List (List ℚ)).headD []).length) ∧
    ((decomposition_equation_resolution_run [[1, 1]] [1, 1] [[1], [2]] false =
        .error .broadcastMismatch) ↔
      ¬ broadcastsInto [[1], [2]] ([[1, 1]] : List (List ℚ)).length ([1, 1] : List ℚ).length) :=
  ⟨by decide, malformed_matrix_broadcast_error _ _ _ false (by decide)⟩

/-- Claim C5 (amended): when `K + constraint < P` no `InsufficientEnergies`
rejection happens — the branch test of line 308 only distinguishes equality,
so the under-determined call falls into the `np.linalg.lstsq` loop, which
returns minimum-norm per-voxel solutions without raising, and the run
completes normally (for images of at least two voxels; single-voxel images
hit the unrelated stacking defect of line 334). -/
theorem underdetermined_not_rejected (images : List (List ℚ)) (densities : List ℚ)
    (mu : List (List ℚ)) (hyp : Bool)
    (hmu : mu.length = images.length ∧ ∀ r ∈ mu, r.length = densities.length)
    (him : ∀ im ∈ images, im.length = (images.headD []).length)
    (hlt : images.length + cNat hyp < densities.length)
    (hV : 2 ≤ (images.headD []).length) :
    isOkB (decomposition_equation_resolution_run images densities mu hyp) = true := by
  have himne : images ≠ [] := by
    intro h
    rw [h] at hV
    simp at hV
  have hmune : mu ≠ [] := by
    intro h
    have h0 := hmu.1
    rw [h] at h0
    cases himages : images with
    | nil => exact himne himages
    | cons a t =>
      rw [himages] at h0
      simp at h0
  have hhead : mu.headD [] ∈ mu := by
    cases mu with
    | nil => exact absurd rfl hmune
    | cons a t => simp
  have hbc : broadcastsInto mu images.length densities.length := by
    obtain ⟨hlen, hrows⟩ := hmu
    refine ⟨?_, Or.inl hlen, Or.inl (hrows _ hhead)⟩
    intro r hr
    rw [hrows r hr, hrows _ hhead]
  unfold decomposition_equation_resolution_run
  rw [if_pos hbc, if_pos him,
    dif_neg (by omega : ¬ (images.length + cNat hyp = densities.length)),
    if_neg (by omega : ¬ ((images.headD []).length = 0)),
    if_neg (by omega : ¬ ((images.headD []).length = 1))]
  rfl

/-- Counterexample to claim C5 as stated: one energy, two materials
(`K + constraint = 1 < 2 = P`), yet the run is not rejected before the solve —
it completes and returns maps. -/
theorem underdetermined_not_rejected_cex :
    (1 + cNat false < 2) ∧
    isOkB (decomposition_equation_resolution_run [[1, 1]] [1, 1] [[1, 2]] false) = true :=
  ⟨by decide, rfl⟩

/-- Witness for the amended C5 at the same under-determined call. -/
theorem underdetermined_not_rejected_witness :
    (([[1, 1]] : List (List ℚ)).length + cNat false < ([1, 1] : List ℚ).length) ∧
    isOkB (decomposition_equation_resolution_run [[1, 1]] [1, 1] [[1, 2]] false) = true :=
  ⟨by decide, underdetermined_not_rejected _ _ _ false (by decide) (by decide) (by decide)
    (by decide)⟩

end MaterialDecomposition

section Registration

open Matrix

/-- `np.linalg.norm` of a 3-vector (used on lines 91-92 and 96 of
registration.py): the square root of the sum of squared components. -/
noncomputable def norm3 (v : Fin 3 → ℝ) : ℝ :=
  Real.sqrt (v 0 ^ 2 + v 1 ^ 2 + v 2 ^ 2)

/-- `np.cross` for 3-vectors (line 95). -/
def cross3 (a b : Fin 3 → ℝ) : Fin 3 → ℝ :=
  ![a 1 * b 2 - a 2 * b 1, a 2 * b 0 - a 0 * b 2, a 0 * b 1 - a 1 * b 0]

/-- `np.dot` for 3-vectors (line 94). -/
def dot3 (a b : Fin 3 → ℝ) : ℝ :=
  a 0 * b 0 + a 1 * b 1 + a 2 * b 2

/-- The normalization `v / np.linalg.norm(v)` of lines 91-92. -/
noncomputable def normalize3 (v : Fin 3 → ℝ) : Fin 3 → ℝ :=
  fun i => v i / norm3 v

/-- `trans_matrix` of line 99: the skew-symmetric cross-product matrix. -/
def skewMatrix (c : Fin 3 → ℝ) : Matrix (Fin 3) (Fin 3) ℝ :=
  !![0, -c 2, c 1; c 2, 0, -c 0; -c 1, c 0, 0]

/-- The divisor `normalized ** 2` of line 103: the squared norm of the cross
product of the two normalized input vectors.  The source divides `1 - scalar`
by this quantity with no guard; in IEEE float arithmetic a zero divisor turns
the returned matrix into NaNs, so theorems about degenerate inputs are stated
through this definition rather than through the total Lean quotient. -/
noncomputable def rodriguesDenominator (m r : Fin 3 → ℝ) : ℝ :=
  norm3 (cross3 (normalize3 m) (normalize3 r)) ^ 2

/-- `calculate_rotation_matrix_between_3d_vectors` (registration.py lines
80-104): `I + T + T·T · ((1 - cos) / sin²)` with `T` the skew matrix of the
cross product of the normalized inputs.  Division is Lean's total division;
see `rodriguesDenominator` for how the unguarded zero-divisor case is
handled. -/
noncomputable def calculate_rotation_matrix_between_3d_vectors (m r : Fin 3 → ℝ) :
    Matrix (Fin 3) (Fin 3) ℝ :=
  let mu := normalize3 m
  let ru := normalize3 r
  let scalar := dot3 mu ru
  let cr := cross3 mu ru
  let T := skewMatrix cr
  1 + T + ((1 - scalar) / rodriguesDenominator m r) • (T * T)

theorem cross3_self (u : Fin 3 → ℝ) : cross3 u u = ![0, 0, 0] := by
  funext i
  fin_cases i <;> simp [cross3] <;> ring

/-- Claim C6 (code bug): for every non-zero `v`, the call
`calculate_rotation_matrix_between_3d_vectors v v` evaluates the Rodrigues
factor `(1 - scalar) / normalized ** 2` (line 103) with divisor exactly zero
and numerator exactly zero — the cross product of a normalized vector with
itself vanishes while the dot product is exactly one — so the float code
computes `0.0 / 0.0 = NaN` and returns an all-NaN matrix instead of the
identity matrix the claim (and the function's own docstring) promises. -/
theorem rotation_matrix_self_divides_zero_by_zero (v : Fin 3 → ℝ) (hv : v ≠ 0) :
    rodriguesDenominator v v = 0 ∧ 1 - dot3 (normalize3 v) (normalize3 v) = 0 := by
  constructor
  · rw [rodriguesDenominator, cross3_self]
    have : norm3 ![0, 0, 0] = 0 := by
      simp [norm3]
    rw [this]
    norm_num
  · obtain ⟨i, hi⟩ := Function.ne_iff.mp hv
    have hipos : (0 : ℝ) < v i ^ 2 :=
      lt_of_le_of_ne (sq_nonneg _) (Ne.symm (pow_ne_zero 2 hi))
    have hle : v i ^ 2 ≤ ∑ j : Fin 3, v j ^ 2 :=
      Finset.single_le_sum (fun j _ => sq_nonneg (v j)) (Finset.mem_univ i)
    have h3 : ∑ j : Fin 3, v j ^ 2 = v 0 ^ 2 + v 1 ^ 2 + v 2 ^ 2 :=
      Fin.sum_univ_three fun j => v j ^ 2
    have hs : (0 : ℝ) < v 0 ^ 2 + v 1 ^ 2 + v 2 ^ 2 := by
      rw [← h3]
      exact lt_of_lt_of_le hipos hle
    have hss : norm3 v * norm3 v = v 0 ^ 2 + v 1 ^ 2 + v 2 ^ 2 := by
      rw [norm3]
      exact Real.mul_self_sqrt hs.le
    have hn : norm3 v ≠ 0 := by
      rw [norm3]
      exact ne_of_gt (Real.sqrt_pos.mpr hs)
    simp only [dot3, normalize3]
    field_simp
    linear_combination hss

/-- Witness for C6 at `v = (1, 0, 0)`. -/
theorem rotation_matrix_self_divides_zero_by_zero_witness :
    rodriguesDenominator ![1, 0, 0] ![1, 0, 0] = 0 ∧
    1 - dot3 (normalize3 ![1, 0, 0]) (normalize3 ![1, 0, 0]) = 0 :=
  rotation_matrix_self_divides_zero_by_zero ![1, 0, 0]
    (by
      intro h
      have := congrFun h 0
      norm_num at this)

/-- The candidate angle of iteration `i` in the symmetry search:
`float(-number_of_iterations + i) / 180 * math.pi` (line 386). -/
noncomputable def candidateAngle (N i : ℕ) : ℝ :=
  (-(N : ℝ) + i) / 180 * Real.pi

/-- The state `(correct_angle, diff)` of `symmetry_based_registration`'s search
loop (lines 376-423) after `n` iterations: the state starts at `(0, 1)` and
iteration `n` replaces it with `(candidateAngle N n, scores n)` exactly when
`scores n` is strictly below the running minimum `diff`.  The asymmetry score
of an iteration (`normalized_value`, computed on lines 388-417 by rotating
image and skull with SimpleITK, cropping to the bounding box, mirroring one
half and counting disagreeing non-background voxels) is supplied as an
abstract function `scores`, since the rotation/resampling that produces it is
an external capability. -/
noncomputable def symFold (N : ℕ) (scores : ℕ → ℚ) : ℕ → ℝ × ℚ
  | 0 => (0, 1)
  | n + 1 =>
    let p := symFold N scores n
    if scores n < p.2 then (candidateAngle N n, scores n) else p

/-- The angle `correct_angle` returned by the search after all
`number_of_iterations * 2` loop iterations (line 384). -/
noncomputable def symmetry_search_angle (N : ℕ) (scores : ℕ → ℚ) : ℝ :=
  (symFold N scores (2 * N)).1

theorem symFold_spec (N : ℕ) (scores : ℕ → ℚ) (n : ℕ) :
    (symFold N scores n = (0, 1) ∧ ∀ k, k < n → 1 ≤ scores k) ∨
    (∃ j, j < n ∧ symFold N scores n = (candidateAngle N j, scores j) ∧ scores j < 1 ∧
      (∀ k, k < n → scores j ≤ scores k) ∧ ∀ k, k < j → scores j < scores k) := by
  induction n with
  | zero => exact Or.inl ⟨rfl, by omega⟩
  | succ n ih =>
    have hstep : symFold N scores (n + 1) =
        if scores n < (symFold N scores n).2 then (candidateAngle N n, scores n)
        else symFold N scores n := rfl
    rcases ih with ⟨hfold, hall⟩ | ⟨j, hj, hfold, hlt, hmin, hfirst⟩
    · by_cases hs : scores n < 1
      · right
        refine ⟨n, by omega, ?_, hs, ?_, ?_⟩
        · rw [hstep, hfold]
          simp [hs]
        · intro k hk
          rcases Nat.lt_succ_iff_lt_or_eq.mp hk with hk' | rfl
          · exact le_trans hs.le (hall k hk')
          · exact le_refl _
        · intro k hk
          exact lt_of_lt_of_le hs (hall k (by omega))
      · left
        refine ⟨?_, ?_⟩
        · rw [hstep, hfold]
          simp [hs]
        · intro k hk
          rcases Nat.lt_succ_iff_lt_or_eq.mp hk with hk' | rfl
          · exact hall k hk'
          · exact not_lt.mp hs
    · by_cases hs : scores n < scores j
      · right
        refine ⟨n, by omega, ?_, lt_trans hs hlt, ?_, ?_⟩
        · rw [hstep, hfold]
          simp [hs]
        · intro k hk
          rcases Nat.lt_succ_iff_lt_or_eq.mp hk with hk' | rfl
          · exact le_trans hs.le (hmin k hk')
          · exact le_refl _
        · intro k hk
          exact lt_of_lt_of_le hs (hmin k (by omega))
      · right
        refine ⟨j, by omega, ?_, hlt, ?_, hfirst⟩
        · rw [hstep, hfold]
          simp [hs]
        · intro k hk
          rcases Nat.lt_succ_iff_lt_or_eq.mp hk with hk' | rfl
          · exact hmin k hk'
          · exact not_lt.mp hs

/-- Counterexample to claim C7 as stated: the claim has the candidates spaced
by `1/180` radians, but the code's step (line 386) is `π/180` radians — one
degree.  At `N = 1` the first evaluated candidate is `-π/180`, not the
`-1/180` radians the claimed grid prescribes. -/
theorem symmetry_search_first_candidate_cex : candidateAngle 1 0 ≠ -(1 / 180 : ℝ) := by
  intro h
  unfold candidateAngle at h
  push_cast at h
  nlinarith [Real.pi_gt_three]

/-- Claim C7 (amended): for every budget `N ≥ 1` the search evaluates exactly
the `2N` candidates `candidateAngle N i = (i - N) · π / 180` for
`i = 0, …, 2N-1` (degrees `-N` through `N-1`, one-degree steps — not `1/180`
radian steps, and the span never reaches `+N`); when some candidate scores
below `1` the search returns the first candidate attaining the minimum score
in iteration order, and when every candidate scores `≥ 1` no update of
`correct_angle` (initialized `0`, `diff` initialized `1`, lines 376-378) ever
fires and the search returns angle `0` regardless of where the minimum
lies. -/
theorem symmetry_search_properties (N : ℕ) (hN : 1 ≤ N) (scores : ℕ → ℚ) :
    (∀ i, i < 2 * N → candidateAngle N i = ((i : ℝ) - N) * Real.pi / 180) ∧
    ((∃ i, i < 2 * N ∧ scores i < 1) →
      ∃ j, j < 2 * N ∧ symmetry_search_angle N scores = candidateAngle N j ∧
        (∀ k, k < 2 * N → scores j ≤ scores k) ∧ ∀ k, k < j → scores j < scores k) ∧
    ((∀ i, i < 2 * N → 1 ≤ scores i) → symmetry_search_angle N scores = 0) := by
  refine ⟨fun i _ => by unfold candidateAngle; ring, ?_, ?_⟩
  · intro ⟨i, hi, hs⟩
    rcases symFold_spec N scores (2 * N) with ⟨_, hall⟩ | ⟨j, hj, hfold, _, hmin, hfirst⟩
    · exact absurd hs (not_lt.mpr (hall i hi))
    · exact ⟨j, hj, by unfold symmetry_search_angle; rw [hfold], hmin, hfirst⟩
  · intro hall
    rcases symFold_spec N scores (2 * N) with ⟨hfold, _⟩ | ⟨j, hj, _, hlt, _, _⟩
    · unfold symmetry_search_angle
      rw [hfold]
    · exact absurd hlt (not_lt.mpr (hall j hj))

def scoresC7 : ℕ → ℚ := fun i => if i = 0 then 1 / 2 else 1

/-- Witness for the amended C7 at `N = 1` with scores `(1/2, 1)`. -/
theorem symmetry_search_properties_witness :
    (∀ i, i < 2 * 1 → candidateAngle 1 i = ((i : ℝ) - ((1 : ℕ) : ℝ)) * Real.pi / 180) ∧
    ((∃ i, i < 2 * 1 ∧ scoresC7 i < 1) →
      ∃ j, j < 2 * 1 ∧ symmetry_search_angle 1 scoresC7 = candidateAngle 1 j ∧
        (∀ k, k < 2 * 1 → scoresC7 j ≤ scoresC7 k) ∧ ∀ k, k < j → scoresC7 j < scoresC7 k) ∧
    ((∀ i, i < 2 * 1 → 1 ≤ scoresC7 i) → symmetry_search_angle 1 scoresC7 = 0) :=
  symmetry_search_properties 1 (by norm_num) scoresC7

end Registration

section RegistrationLists

/-- The blackness test of registration.py lines 183 and 191:
`(slice_of_image == 0).sum() > slice_of_image.size * 0.5` — strictly more
than half of the slice's pixels are exactly zero. -/
def mostlyBlack (s : List ℚ) : Bool :=
  decide (s.length < 2 * s.countP fun x => decide (x = 0))

/-- The front while-loop of `count_the_needed_translation_for_black_slices`
(lines 179-186), state `(nb_slice, front_offset, slice_of_image)`.  The body
increments `front_offset`, re-reads `slice_of_image = image[nb_slice]` with
the not-yet-incremented `nb_slice`, and only then increments `nb_slice` — so
slice 0 is tested twice.  `fuel` bounds the remaining iterations; the guard
`nb_slice < image.shape[0]` stops the loop after at most `image.length`
iterations, so starting fuel `image.length + 1` reproduces the loop
exactly. -/
def frontLoop (image : List (List ℚ)) : ℕ → ℕ → ℕ → List ℚ → ℕ
  | 0, _, off, _ => off
  | fuel + 1, nb, off, s =>
    if mostlyBlack s ∧ nb < image.length then
      frontLoop image fuel (nb + 1) (off + 1) (image.getD nb [])
    else off

/-- The back while-loop (lines 188-194), mirroring `frontLoop` from the last
slice downwards with guard `nb_slice >= 0`; the body reads `image[nb_slice]`
before decrementing, so the last slice is tested twice. -/
def backLoop (image : List (List ℚ)) : ℕ → ℤ → ℕ → List ℚ → ℕ
  | 0, _, off, _ => off
  | fuel + 1, nb, off, s =>
    if mostlyBlack s ∧ 0 ≤ nb then
      backLoop image fuel (nb - 1) (off + 1) (image.getD nb.toNat [])
    else off

/-- `count_the_needed_translation_for_black_slices` (lines 169-196): the pair
`(front_offset, bottom_offset)`.  A zero-slice input volume is not modelled
(Python would raise on `image[-1]`; no claim exercises it). -/
def count_the_needed_translation_for_black_slices (image : List (List ℚ)) : ℕ × ℕ :=
  (frontLoop image (image.length + 1) 0 0 (image.getD 0 []),
   backLoop image (image.length + 1) ((image.length : ℤ) - 1) 0
     (image.getD (image.length - 1) []))

/-- The two-pass offset bookkeeping of `straight_throat_rotation` (lines
332-341), with the two SimpleITK-rotated volumes supplied abstractly (the
resampling itself is an external capability):
`first_offset = (first_front - first_back) / 2` and the returned
`final_offset = (second_front - second_back) / 2 + first_offset`. -/
def straight_throat_rotation_offset (firstTry secondTry : List (List ℚ)) : ℚ :=
  ((count_the_needed_translation_for_black_slices secondTry).1 -
      ((count_the_needed_translation_for_black_slices secondTry).2 : ℚ)) / 2 +
    ((count_the_needed_translation_for_black_slices firstTry).1 -
      ((count_the_needed_translation_for_black_slices firstTry).2 : ℚ)) / 2

def c8Image : List (List ℚ) := [[0, 0], [1, 1], [1, 1]]

/-- Claim C8 (code bug): on a 3-slice volume whose slice 0 alone is mostly
zero, the count returns front offset `2`, not the `1` the claim (and the
function's own docstring, "count the number of slices") promises: the loop
body reads `image[nb_slice]` before incrementing `nb_slice`, so the first
mostly-black slice is counted twice.  The last three conjuncts exhibit that
exactly one leading slice is mostly black.  (The second half of the claim —
`final_offset = (second_front - second_back)/2 + (first_front - first_back)/2`
— matches lines 335-340; see `straight_throat_rotation_offset`.) -/
theorem count_black_slices_off_by_one :
    count_the_needed_translation_for_black_slices c8Image = (2, 0) ∧
    mostlyBlack (c8Image.getD 0 []) = true ∧
    mostlyBlack (c8Image.getD 1 []) = false ∧
    mostlyBlack (c8Image.getD 2 []) = false := by
  decide

/-- Error outcomes of the centroid helper.  `emptyMask` is the error kind the
specification prescribes; the code never raises it — the constructor exists
solely so the claim can be stated. -/
inductive CentroidErr where
  | indexError
  | emptyMask
  deriving DecidableEq

/-- Reads pixel `(row, col)` of a 2-D mask; out-of-range reads give 0. -/
def maskPixel (mask : List (List ℚ)) (p : ℕ × ℕ) : ℚ :=
  (mask.getD p.1 []).getD p.2 0

/-- All coordinates of the mask in row-major scan order. -/
def maskCoords (mask : List (List ℚ)) : List (ℕ × ℕ) :=
  (List.range mask.length).flatMap fun r =>
    (List.range (mask.getD r []).length).map fun c => (r, c)

/-- The first nonzero pixel in scan order.  `skimage.measure.label` gives
label 1 to the connected component containing this pixel, so `regionprops`
lists that component's region first; the result is `none` exactly when the
mask has no nonzero pixel, in which case `regionprops` returns `[]`. -/
def firstNonzero (mask : List (List ℚ)) : Option (ℕ × ℕ) :=
  (maskCoords mask).find? fun p => decide (maskPixel mask p ≠ 0)

/-- The eight neighbours of a pixel (2-connectivity, the `label` default for
2-D input), clipped at the top/left border. -/
def neighbors8 (p : ℕ × ℕ) : List (ℕ × ℕ) :=
  ([(-1, -1), (-1, 0), (-1, 1), (0, -1), (0, 1), (1, -1), (1, 0), (1, 1)] :
      List (ℤ × ℤ)).filterMap fun d =>
    if 0 ≤ (p.1 : ℤ) + d.1 ∧ 0 ≤ (p.2 : ℤ) + d.2 then
      some (((p.1 : ℤ) + d.1).toNat, ((p.2 : ℤ) + d.2).toNat)
    else none

/-- One step of connected-component growth: adjoin every equal-valued
8-neighbour of the current pixel set. -/
def growOnce (mask : List (List ℚ)) (val : ℚ) (s : List (ℕ × ℕ)) : List (ℕ × ℕ) :=
  s.foldl (fun acc p =>
    (neighbors8 p).foldl (fun acc2 q =>
      if maskPixel mask q = val ∧ q ∉ acc2 then acc2 ++ [q] else acc2) acc) s

def growN (mask : List (List ℚ)) (val : ℚ) : ℕ → List (ℕ × ℕ) → List (ℕ × ℕ)
  | 0, s => s
  | n + 1, s => growN mask val n (growOnce mask val s)

/-- The pixel set of `regions[0]`: the connected component of the first
nonzero pixel under 8-connectivity among equal-valued pixels, reached as the
fixed point of `growOnce` within `height · width` steps. -/
def firstRegion (mask : List (List ℚ)) (p0 : ℕ × ℕ) : List (ℕ × ℕ) :=
  growN mask (maskPixel mask p0) (mask.length * (mask.headD []).length) [p0]

/-- `regions[0].centroid`: the mean (row, col) of the region's pixels. -/
def centroidOf (s : List (ℕ × ℕ)) : ℚ × ℚ :=
  ((s.map fun p => (p.1 : ℚ)).sum / s.length, (s.map fun p => (p.2 : ℚ)).sum / s.length)

/-- `retrieve_throat_centroid` (registration.py lines 154-166): label the
mask, take `regions[0]`, return its centroid.  On a mask with no nonzero
pixel `regionprops` yields the empty list, and the bare indexing
`regions[0]` raises Python's `IndexError`. -/
def retrieve_throat_centroid (mask : List (List ℚ)) : Except CentroidErr (ℚ × ℚ) :=
  match firstNonzero mask with
  | none => .error .indexError
  | some p => .ok (centroidOf (firstRegion mask p))

theorem getD_zero_of_all_zero (l : List ℚ) (h : ∀ x ∈ l, x = 0) (n : ℕ) :
    l.getD n 0 = 0 := by
  rcases Nat.lt_or_ge n l.length with hn | hn
  · rw [List.getD_eq_getElem l 0 hn]
    exact h _ (List.getElem_mem hn)
  · exact List.getD_eq_default l 0 hn

theorem maskPixel_zero (mask : List (List ℚ)) (hz : ∀ row ∈ mask, ∀ x ∈ row, x = 0)
    (p : ℕ × ℕ) : maskPixel mask p = 0 := by
  unfold maskPixel
  rcases Nat.lt_or_ge p.1 mask.length with hn | hn
  · rw [List.getD_eq_getElem mask [] hn]
    exact getD_zero_of_all_zero _ (hz _ (List.getElem_mem hn)) p.2
  · rw [List.getD_eq_default mask [] hn]
    simp

/-- Claim C9 (amended): on an empty 2-D mask (no nonzero pixel, hence no
labelled region) the centroid helper fails — but with a propagated bare
`IndexError` from `regions[0]` on the empty region list, not with the
dedicated `EmptyMask` error the claim requires (no such error exists in the
code). -/
theorem centroid_empty_mask_raises_index_error (mask : List (List ℚ))
    (hz : ∀ row ∈ mask, ∀ x ∈ row, x = 0) :
    retrieve_throat_centroid mask = .error .indexError := by
  have hfn : firstNonzero mask = none := by
    rw [firstNonzero, List.find?_eq_none]
    intro p _
    simp [maskPixel_zero mask hz p]
  rw [retrieve_throat_centroid, hfn]

/-- Counterexample to claim C9 as stated: the all-zero 2 × 2 mask makes the
call fail with `IndexError` — an unrelated propagated exception — which is
not the `EmptyMask` signal the claim requires. -/
theorem centroid_empty_mask_cex :
    retrieve_throat_centroid [[0, 0], [0, 0]] = .error .indexError ∧
    CentroidErr.indexError ≠ CentroidErr.emptyMask :=
  ⟨rfl, by decide⟩

/-- Witness for the amended C9 at the all-zero 1 × 1 mask. -/
theorem centroid_empty_mask_raises_index_error_witness :
    (∀ row ∈ ([[0]] : List (List ℚ)), ∀ x ∈ row, x = 0) ∧
    retrieve_throat_centroid [[0]] = .error .indexError :=
  ⟨by decide, centroid_empty_mask_raises_index_error [[0]] (by decide)⟩

/-- Python `int(·)` applied to a float: truncation toward zero. -/
def pyInt (q : ℚ) : ℤ :=
  if 0 ≤ q then ⌊q⌋ else ⌈q⌉

/-- The bounding-box recentering at the top of `symmetry_based_registration`
(registration.py lines 361-365).  The source mutates the caller's
`skull_bounding_box` array in place — whichever x-half of the box around the
throat x-coordinate `tx` is wider, the opposite bound is overwritten; this
embedding returns the contents `(box[0], box[1])` the caller's array holds
after the call. -/
def recenterBoundingBox (b0 b1 : ℤ) (tx : ℚ) : ℤ × ℤ :=
  if (tx - (b0 : ℚ)) > (b1 : ℚ) - tx then (b0, pyInt ((b0 : ℚ) + (tx - (b0 : ℚ)) * 2))
  else (pyInt ((b1 : ℚ) - ((b1 : ℚ) - tx) * 2), b1)

/-- Counterexample to claim C10 as stated: with box `(0, 10)` and fractional
throat x-coordinate `21/4`, the throat is not centered, the write
`skull_bounding_box[1] = int(b0 + (tx - b0) * 2)` fires — yet
`int(10.5) = 10` reproduces the old bound, so the caller's array contents are
unchanged. -/
theorem recenter_box_unchanged_cex :
    ((21 / 4 : ℚ) - ((0 : ℤ) : ℚ) ≠ ((10 : ℤ) : ℚ) - 21 / 4) ∧
    recenterBoundingBox 0 10 (21 / 4) = (0, 10) := by
  constructor
  · norm_num
  · unfold recenterBoundingBox
    rw [if_pos (by norm_num)]
    unfold pyInt
    rw [if_pos (by norm_num)]
    have : (((0 : ℤ) : ℚ) + (21 / 4 - ((0 : ℤ) : ℚ)) * 2) = 21 / 2 := by norm_num
    rw [this]
    have hfl : ⌊(21 / 2 : ℚ)⌋ = 10 := by
      rw [Int.floor_eq_iff]
      constructor <;> norm_num
    rw [hfl]

/-- Claim C10 (amended): whenever the throat x-coordinate is not centered in
the box, exactly one of `box[0]`, `box[1]` is overwritten in place before the
angular search; the stored value actually changes whenever the recentered
endpoint survives the `int()` truncation — in particular always when the
throat coordinate is an integer.  (With fractional coordinates the truncation
can reproduce the old bound; see `recenter_box_unchanged_cex`.) -/
theorem recenter_box_changes_for_integer_throat (b0 b1 tx : ℤ)
    (h : tx - b0 ≠ b1 - tx) :
    recenterBoundingBox b0 b1 (tx : ℚ) ≠ (b0, b1) := by
  have hpy : ∀ n : ℤ, pyInt (n : ℚ) = n := by
    intro n
    unfold pyInt
    split
    · exact Int.floor_intCast n
    · exact Int.ceil_intCast n
  unfold recenterBoundingBox
  split
  · have h2 : ((b0 : ℚ) + (((tx : ℤ) : ℚ) - (b0 : ℚ)) * 2) = ((2 * tx - b0 : ℤ) : ℚ) := by
      push_cast
      ring
    rw [h2, hpy]
    intro hc
    have hsnd := congrArg Prod.snd hc
    simp only at hsnd
    omega
  · have h2 : ((b1 : ℚ) - ((b1 : ℚ) - ((tx : ℤ) : ℚ)) * 2) = ((2 * tx - b1 : ℤ) : ℚ) := by
      push_cast
      ring
    rw [h2, hpy]
    intro hc
    have hfst := congrArg Prod.fst hc
    simp only at hfst
    omega

/-- Witness for the amended C10: box `(0, 4)`, integer throat coordinate `1`
(off-center), the call rewrites `box[0]` to `-2`. -/
theorem recenter_box_changes_witness :
    ((1 : ℤ) - 0 ≠ (4 : ℤ) - 1) ∧
    recenterBoundingBox 0 4 (((1 : ℤ) : ℚ)) ≠ (0, 4) :=
  ⟨by decide, recenter_box_changes_for_integer_throat 0 4 1 (by decide)⟩

end RegistrationLists
